import Mathlib

/-! Verification of the streaming-response normalization and
conversation-synchronization core of a multi-provider chat client:
the citation merge engine, annotation extraction, per-model context
builder, provider dispatch, turn-level stop, and the chunked SSE
frame decoder, each embedded from the source and proved against the
specified properties. -/

/-- JSON values as produced by the JavaScript JSON parser.  Numbers are
modelled as integers; no verified property depends on numeric payloads. -/
inductive Json where
  | null
  | bool (b : Bool)
  | num (n : Int)
  | str (s : String)
  | arr (elems : List Json)
  | obj (fields : List (String × Json))

/-- Object keys probed by the source, bound to names so that string
literals never directly follow an identifier. -/
def keyUrlCitation : String := "url_citation"

def keyUrlCitationCamel : String := "urlCitation"

def keyUrl : String := "url"

def keyTitle : String := "title"

def keyContent : String := "content"

/-- Citation record `{url (key), title?, content?}` of the source's
`SourceCitation` type.  `none` models an absent (`undefined`) field. -/
structure SourceCitation where
  url : String
  title : Option String := none
  content : Option String := none
deriving DecidableEq, Repr

/-- Property access `x[key]` on a JSON value: a lookup in an object's
fields, `undefined` (`none`) on every non-object. -/
def jsField (j : Json) (key : String) : Option Json :=
  match j with
  | .obj fields => (fields.find? (fun p => p.1 == key)).map (fun p => p.2)
  | _ => none

/-- Collapse a JavaScript `null` value to `undefined`: both are nullish
for the `??` operator and for optional chaining. -/
def denull : Option Json → Option Json
  | some .null => none
  | x => x

/-- The check `annotation && typeof annotation === "object"`:
true exactly on objects and arrays (JS arrays have typeof "object"),
false on null and every primitive. -/
def jsIsObjectLike : Json → Bool
  | .obj _ => true
  | .arr _ => true
  | _ => false

/-- The probed citation object `ann.url_citation ?? ann.urlCitation ?? ann`
from `extractSources`. -/
def probeCitation (ann : Json) : Json :=
  match denull (jsField ann keyUrlCitation) with
  | some c => c
  | none =>
    match denull (jsField ann keyUrlCitationCamel) with
    | some c => c
    | none => ann

/-- Read a field and keep it only when it is a string, as in
`typeof citation.title === "string" ? citation.title : undefined`. -/
def jsStrField (j : Json) (key : String) : Option String :=
  match jsField j key with
  | some (.str s) => some s
  | _ => none

/-- The url chosen by `extractSources` for one annotation entry:
`typeof citation.url === "string" ? citation.url :
 typeof ann.url === "string" ? ann.url : ""`. -/
def extractUrl (a : Json) : String :=
  match jsStrField (probeCitation a) keyUrl with
  | some u => u
  | none =>
    match jsStrField a keyUrl with
    | some u => u
    | none => ""

/-- Body of the `flatMap` in `extractSources`, for one annotation entry. -/
def extractOneAnn (a : Json) : List SourceCitation :=
  if jsIsObjectLike a then
    if extractUrl a = "" then []
    else [{ url := extractUrl a, title := jsStrField (probeCitation a) keyTitle,
            content := jsStrField (probeCitation a) keyContent }]
  else []

/-- The element list of a JSON value; `extractSources` returns `[]`
outright when its argument is not an array. -/
def jsElems : Json → List Json
  | .arr xs => xs
  | _ => []

/-- Embedding of `extractSources(annotations)` from the source. -/
def extractSources (anns : Json) : List SourceCitation :=
  match anns with
  | .arr xs => xs.flatMap extractOneAnn
  | _ => []

/-- JavaScript `Map.set` keyed by url: replace the value at an existing
key in place (the key keeps its position), else append a new entry. -/
def mapSet : List SourceCitation → SourceCitation → List SourceCitation
  | [], v => [v]
  | c :: rest, v => if c.url = v.url then v :: rest else c :: mapSet rest v

/-- JavaScript `Map.get` keyed by url: the value stored at the first
(and, in a `Map`, only) entry whose key is `u`. -/
def mapGet : List SourceCitation → String → Option SourceCitation
  | [], _ => none
  | c :: rest, u => if c.url = u then some c else mapGet rest u

/-- Value written by one iteration of the `incoming.forEach` loop of
`mergeSources`: a fresh url is inserted as-is, an existing entry keeps
its fields via nullish coalescing (`current.title ?? source.title`,
modelled by `Option.or`). -/
def mergeVal (m : List SourceCitation) (s : SourceCitation) : SourceCitation :=
  match mapGet m s.url with
  | none => s
  | some current =>
    { url := s.url, title := current.title.or s.title,
      content := current.content.or s.content }

/-- One iteration of the `incoming.forEach` loop of `mergeSources`:
`map.set(source.url, value)` with the value described by `mergeVal`. -/
def mergeStep (m : List SourceCitation) (s : SourceCitation) : List SourceCitation :=
  mapSet m (mergeVal m s)

/-- Embedding of `mergeSources(existing, incoming)` from the source:
seed a url-keyed mapping from `existing ?? []`, fold the incoming
citations through `mergeStep`, and return the mapping's values. -/
def mergeSources (existing : Option (List SourceCitation))
    (incoming : List SourceCitation) : List SourceCitation :=
  incoming.foldl mergeStep ((existing.getD []).foldl mapSet [])

/-- The key sequence of the mapping. -/
def urlsOf (m : List SourceCitation) : List String :=
  m.map (fun c => c.url)

/-- The stored value of field `g` (title or content) at key `u`. -/
def fieldAt (g : SourceCitation → Option String) (m : List SourceCitation)
    (u : String) : Option String :=
  (mapGet m u).bind g

/-- First defined value of field `g` among the incoming citations whose
url is `u`, in nullish-coalescing order. -/
def fieldFold (g : SourceCitation → Option String) (L : List SourceCitation)
    (u : String) : Option String :=
  L.foldl (fun a s => if s.url = u then a.or (g s) else a) none

/-- Both field projections turn the merged record into `Option.or`. -/
def MergeField (g : SourceCitation → Option String) : Prop :=
  ∀ (c s : SourceCitation),
    g { url := s.url, title := c.title.or s.title,
        content := c.content.or s.content } = (g c).or (g s)

/-- Concrete strings used in counterexamples and witnesses. -/
def urlA : String := "https://a.com"

def urlB : String := "https://b.com"

def titleX : String := "X"

def titleT : String := "T"

def contentC : String := "C"

def emptyStr : String := ""

/-- Witness list: one existing citation with a defined title. -/
def witS : List SourceCitation := [{ url := urlA, title := some titleT, content := none }]

/-- Witness list: one incoming citation for the same url. -/
def witL : List SourceCitation :=
  [{ url := urlA, title := some titleX, content := some contentC }]

/-- Witness citation: the existing entry of `witS`. -/
def witC : SourceCitation := { url := urlA, title := some titleT, content := none }

/-- Insertion of a key into a JS `Map`'s key sequence: an existing key
keeps its position, a new key is appended. -/
def insertUrl (acc : List String) (u : String) : List String :=
  if u ∈ acc then acc else acc ++ [u]

/-- Witness lists for the url-order property: one existing citation and
two incoming ones, one of which repeats the existing url. -/
def witS3 : List SourceCitation := [{ url := urlA, title := some titleT, content := none }]

def witL3 : List SourceCitation :=
  [{ url := urlB, title := none, content := some contentC },
   { url := urlA, title := some titleX, content := none },
   { url := urlB, title := some titleX, content := none }]

/-- Witness annotation entry: a nested `url_citation` object carrying a
url and a title. -/
def witAnnEntry : Json :=
  .obj [(keyUrlCitation, .obj [(keyUrl, .str urlA), (keyTitle, .str titleT)])]

/-- Witness annotation list holding the single entry `witAnnEntry`. -/
def witAnns : Json := .arr [witAnnEntry]

/-- Provider identifiers, the keys of the `PROVIDERS` record. -/
inductive ProviderId where
  | openrouter
  | openai
  | anthropic
  | google
  | mistral
  | deepseek
deriving DecidableEq, Repr

/-- The `type` tag of a provider entry, selecting the adapter family. -/
inductive ProviderType where
  | openai
  | anthropic
  | google
deriving DecidableEq, Repr

/-- One entry of the `PROVIDERS` record. -/
structure ProviderInfo where
  name : String
  type : ProviderType
  baseUrl : String
deriving DecidableEq, Repr

def nameOpenRouter : String := "OpenRouter"

def nameOpenAI : String := "OpenAI"

def nameAnthropic : String := "Anthropic"

def nameGoogle : String := "Google"

def nameMistral : String := "Mistral"

def nameDeepSeek : String := "DeepSeek"

def urlOpenRouter : String := "https://openrouter.ai/api/v1"

def urlOpenAI : String := "https://api.openai.com/v1"

def urlAnthropic : String := "https://api.anthropic.com/v1"

def urlGoogle : String := "https://generativelanguage.googleapis.com/v1beta"

def urlMistral : String := "https://api.mistral.ai/v1"

def urlDeepSeek : String := "https://api.deepseek.com/v1"

/-- The `PROVIDERS` record of the source. -/
def PROVIDERS : ProviderId → ProviderInfo
  | .openrouter => { name := nameOpenRouter, type := .openai, baseUrl := urlOpenRouter }
  | .openai => { name := nameOpenAI, type := .openai, baseUrl := urlOpenAI }
  | .anthropic => { name := nameAnthropic, type := .anthropic, baseUrl := urlAnthropic }
  | .google => { name := nameGoogle, type := .google, baseUrl := urlGoogle }
  | .mistral => { name := nameMistral, type := .openai, baseUrl := urlMistral }
  | .deepseek => { name := nameDeepSeek, type := .openai, baseUrl := urlDeepSeek }

/-- Message roles. -/
inductive Role where
  | user
  | assistant
deriving DecidableEq, Repr

/-- File attachment `{name, type, dataUrl}` from the source. -/
structure Attachment where
  name : String
  type : String
  dataUrl : String
deriving DecidableEq, Repr

/-- The `Message` record of the source.  Optional fields are `Option`s;
`isStreaming?: boolean` is modelled as a `Bool` (an absent flag is
falsy, exactly like `false`, everywhere the source reads it). -/
structure Message where
  id : String
  role : Role
  content : String
  createdAt : Nat
  modelId : Option String := none
  providerId : Option ProviderId := none
  isStreaming : Bool := false
  images : List String := []
  attachments : List Attachment := []
  sources : List SourceCitation := []
deriving DecidableEq, Repr

/-- The filter predicate of `buildContext`: keep user messages, and
assistant messages whose `(modelId, providerId)` equal the target. -/
def keepForModel (modelId : String) (providerId : ProviderId) (m : Message) : Bool :=
  if m.role = Role.user then true
  else if m.role = Role.assistant ∧ m.modelId = some modelId ∧
      m.providerId = some providerId then true
  else false

/-- Embedding of `buildContext(messages, modelId, providerId)`. -/
def buildContext (messages : List Message) (modelId : String)
    (providerId : ProviderId) : List Message :=
  messages.filter (keepForModel modelId providerId)

def modelA : String := "openrouter/model-a"

def modelB : String := "openrouter/model-b"

def idU : String := "m-user"

def idA : String := "m-a"

def idB : String := "m-b"

/-- Witness log: one user message and one assistant message per model. -/
def msgUser : Message := { id := idU, role := .user, content := titleT, createdAt := 0 }

def msgA : Message :=
  { id := idA, role := .assistant, content := titleT, createdAt := 1,
    modelId := some modelA, providerId := some ProviderId.openrouter }

def msgB : Message :=
  { id := idB, role := .assistant, content := titleX, createdAt := 2,
    modelId := some modelB, providerId := some ProviderId.openrouter }

def witLog : List Message := [msgUser, msgA, msgB]

/-- The message update of `stopStreaming`: every streaming message of
the conversation is marked not streaming, everything else untouched. -/
def stopStreamingMessages (messages : List Message) : List Message :=
  messages.map (fun m => if m.isStreaming then { m with isStreaming := false } else m)

/-- Observable result of `stopStreaming`: the set of cancellation
handles that were aborted, the registry afterwards (cleared), and the
updated conversation messages. -/
structure StopResult where
  aborted : List String
  controllers : List String
  messages : List Message
deriving DecidableEq, Repr

/-- Embedding of `stopStreaming()`: abort every controller in
`abortControllersRef`, clear the registry, and clear the streaming flag
of every streaming message of the active conversation. -/
def stopStreaming (controllers : List String) (messages : List Message) : StopResult :=
  { aborted := controllers, controllers := [],
    messages := stopStreamingMessages messages }

/-- Embedding of the `AbortError` branch of `sendMessage`: the aborted
task's message merely stops streaming; no error text is appended. -/
def onAbortError (messages : List Message) (messageId : String) : List Message :=
  messages.map (fun m => if m.id = messageId then { m with isStreaming := false } else m)

/-- Witness messages: one streaming, one finished. -/
def msgStreamingWit : Message :=
  { id := idA, role := .assistant, content := titleT, createdAt := 1,
    modelId := some modelA, providerId := some ProviderId.openrouter,
    isStreaming := true, sources := witS3 }

def msgDoneWit : Message :=
  { id := idB, role := .assistant, content := titleX, createdAt := 2,
    modelId := some modelB, providerId := some ProviderId.openrouter,
    isStreaming := false }

def witStopMsgs : List Message := [msgStreamingWit, msgDoneWit]

/-- The adapter selected by the provider dispatch. -/
inductive AdapterCall where
  | openaiCompatible (baseUrl : String)
  | anthropicStyle
  | googleStyle
deriving DecidableEq, Repr

def missingKeyError : String := "Missing API key for provider."

/-- Embedding of `streamProviderResponse`: an empty `apiKey` throws
before the provider entry is even consulted; otherwise the adapter
matching the provider's `type` tag is invoked. -/
def streamProviderResponse (providerId : ProviderId) (apiKey : String) :
    Except String AdapterCall :=
  if apiKey = "" then .error missingKeyError
  else
    match (PROVIDERS providerId).type with
    | .openai => .ok (.openaiCompatible (PROVIDERS providerId).baseUrl)
    | .anthropic => .ok .anthropicStyle
    | .google => .ok .googleStyle

def apiKeySample : String := "sk-test"

/-- Prepend a character to the first segment of a split result, used to
express `String.split` one character at a time. -/
def consHead (c : Char) : List (List Char) → List (List Char)
  | [] => [[c]]
  | s :: ss => (c :: s) :: ss

/-- JavaScript `buffer.split("\n\n")`: leftmost, non-overlapping
occurrences of the blank-line delimiter separate the segments; the
result always has at least one (possibly empty) segment. -/
def splitOnNN : List Char → List (List Char)
  | [] => [[]]
  | [c] => consHead c [[]]
  | c :: d :: rest =>
    if c = '\n' ∧ d = '\n' then [] :: splitOnNN rest
    else consHead c (splitOnNN (d :: rest))

/-- Number of bytes of a UTF-8 sequence headed by `lead`. -/
def needed (lead : Nat) : Nat :=
  if lead < 0xE0 then 2 else if lead < 0xF0 then 3 else 4

/-- Valid range of the next continuation byte, given the bytes of the
incomplete sequence collected so far (WHATWG utf-8 decoder boundaries:
the second byte is restricted for leads E0, ED, F0 and F4). -/
def contRange (acc : List Nat) : Nat × Nat :=
  match acc with
  | [0xE0] => (0xA0, 0xBF)
  | [0xED] => (0x80, 0x9F)
  | [0xF0] => (0x90, 0xBF)
  | [0xF4] => (0x80, 0x8F)
  | _ => (0x80, 0xBF)

def validCont (acc : List Nat) (b : Nat) : Bool :=
  decide ((contRange acc).1 ≤ b ∧ b ≤ (contRange acc).2)

/-- Code point encoded by a complete UTF-8 byte sequence. -/
def decodeSeq : List Nat → Nat
  | [] => 0xFFFD
  | l :: rest =>
    let init := if l < 0xE0 then l - 0xC0 else if l < 0xF0 then l - 0xE0 else l - 0xF0
    rest.foldl (fun cp b => cp * 64 + (b - 0x80)) init

def replacementChar : Char := '�'

/-- One byte of the incremental `TextDecoder("utf-8", {stream: true})`
state machine (WHATWG encoding standard): the state is the byte list of
the current incomplete sequence; a malformed byte emits U+FFFD and is
then reprocessed from the initial state (the reprocessing is inlined in
the last three branches). -/
def utf8Step : List Nat → Nat → List Nat × List Char
  | [], b =>
    if b < 0x80 then ([], [Char.ofNat b])
    else if 0xC2 ≤ b ∧ b ≤ 0xF4 then ([b], [])
    else ([], [replacementChar])
  | l :: acc2, b =>
    if validCont (l :: acc2) b then
      if (l :: acc2).length + 1 = needed l then
        ([], [Char.ofNat (decodeSeq ((l :: acc2) ++ [b]))])
      else ((l :: acc2) ++ [b], [])
    else
      if b < 0x80 then ([], [replacementChar, Char.ofNat b])
      else if 0xC2 ≤ b ∧ b ≤ 0xF4 then ([b], [replacementChar])
      else ([], [replacementChar, replacementChar])

/-- Feed one chunk of bytes to the text decoder, starting from the
carried-over state `pending`; returns the new state and the decoded
characters. -/
def utf8FeedFrom (pending : List Nat) (chunk : List Nat) : List Nat × List Char :=
  chunk.foldl
    (fun st b =>
      let r := utf8Step st.1 b
      (r.1, st.2 ++ r.2))
    (pending, [])

/-- State of the per-chunk frame decoder loop of the adapters:
the text decoder's internal state, the carry-over text buffer, and the
complete frames produced so far (before any payload inspection). -/
structure DecoderState where
  pending : List Nat
  buffer : List Char
  frames : List (List Char)
deriving DecidableEq, Repr

/-- One iteration of `while (true) { ... }` with one received chunk:
decode bytes incrementally, append to the buffer, split on the
blank-line delimiter; every complete part is a frame and the final part
is the new carry-over (`buffer = parts.pop() ?? ""`). -/
def feedChunk (st : DecoderState) (chunk : List Nat) : DecoderState :=
  let d := utf8FeedFrom st.pending chunk
  let parts := splitOnNN (st.buffer ++ d.2)
  { pending := d.1, buffer := parts.getLastD [],
    frames := st.frames ++ parts.dropLast }

def initDecoder : DecoderState := { pending := [], buffer := [], frames := [] }

/-- Decode an entire chunked byte stream. -/
def feedChunks (chunks : List (List Nat)) : DecoderState :=
  chunks.foldl feedChunk initDecoder

/-- Whitespace removed by JavaScript `trim()` and matched by `\s`
(the ASCII portion, which is all the source's payloads contain). -/
def isWs (c : Char) : Bool :=
  c = ' ' ∨ c = '\t' ∨ c = '\n' ∨ c = '\r' ∨ c = '\x0b' ∨ c = '\x0c'

/-- JavaScript `String.trim()` on a character list. -/
def trimChars (l : List Char) : List Char :=
  ((l.dropWhile isWs).reverse.dropWhile isWs).reverse

def dataTag : List Char := "data:".toList

def doneTag : List Char := "[DONE]".toList

/-- Payload extraction of the OpenAI-compatible (and Google) frame
loop: `const line = part.trim(); if (!line.startsWith("data:"))
continue; const data = line.replace(/^data:\s*/, "").trim();`. -/
def framePayload (part : List Char) : Option (List Char) :=
  let line := trimChars part
  if dataTag.isPrefixOf line then
    some (trimChars ((line.drop 5).dropWhile isWs))
  else none

/-- JavaScript truthiness of a JSON value. -/
def jsTruthy : Json → Bool
  | .null => false
  | .bool b => b
  | .num n => decide (n ≠ 0)
  | .str s => decide (s ≠ "")
  | .arr _ => true
  | .obj _ => true

/-- Optional chaining `x?.key`. -/
def optField (j : Option Json) (key : String) : Option Json :=
  (denull j).bind (fun x => jsField x key)

def keyChoices : String := "choices"

def keyDelta : String := "delta"

def keyMessage : String := "message"

def keyAnnotations : String := "annotations"

def keyImages : String := "images"

def keyImageUrl : String := "image_url"

def keyZero : String := "0"

def keyCandidates : String := "candidates"

def keyParts : String := "parts"

def keyText : String := "text"

def keyType : String := "type"

def typeContentBlockDelta : String := "content_block_delta"

/-- Index access `x[0]` on a JSON value: the first element of an array,
the field named "0" of an object, `undefined` otherwise. -/
def jsIdx0 : Json → Option Json
  | .arr (x :: _) => some x
  | .obj fields => (fields.find? (fun p => p.1 == keyZero)).map (fun p => p.2)
  | _ => none

/-- Optional chaining `x?.[0]`. -/
def optIdx0 (j : Option Json) : Option Json :=
  (denull j).bind jsIdx0

/-- Nullish coalescing `x ?? y`. -/
def nullishOr (x y : Option Json) : Option Json :=
  match denull x with
  | some v => some v
  | none => y

/-- The token chain `json.choices?.[0]?.delta?.content`. -/
def oaDelta (json : Json) : Option Json :=
  optField (optField (optIdx0 (jsField json keyChoices)) keyDelta) keyContent

/-- The citation chain `json.choices?.[0]?.delta?.annotations ??
json.choices?.[0]?.message?.annotations ??
json.choices?.[0]?.message?.content?.[0]?.annotations`. -/
def oaAnnChain (json : Json) : Option Json :=
  nullishOr
    (optField (optField (optIdx0 (jsField json keyChoices)) keyDelta) keyAnnotations)
    (nullishOr
      (optField (optField (optIdx0 (jsField json keyChoices)) keyMessage) keyAnnotations)
      (optField
        (optIdx0
          (optField (optField (optIdx0 (jsField json keyChoices)) keyMessage) keyContent))
        keyAnnotations))

/-- The image chain `json.choices?.[0]?.delta?.images ??
json.choices?.[0]?.message?.images`. -/
def oaImagesChain (json : Json) : Option Json :=
  nullishOr
    (optField (optField (optIdx0 (jsField json keyChoices)) keyDelta) keyImages)
    (optField (optField (optIdx0 (jsField json keyChoices)) keyMessage) keyImages)

/-- Per-image url `img?.image_url?.url ?? img?.url`. -/
def oaImgUrl (img : Json) : Option Json :=
  nullishOr (optField (optField (some img) keyImageUrl) keyUrl)
    (optField (some img) keyUrl)

/-- Normalized events emitted by the OpenAI-compatible adapter. -/
inductive OAEvent where
  | token (delta : Json)
  | sourceBatch (anns : Json)
  | image (url : Json)

/-- Events emitted while processing one successfully parsed frame of
the OpenAI-compatible stream: a token when the delta is truthy, a
citation batch when the probed annotation chain is truthy, and one
image event per array element with a truthy url.  (A truthy non-array
`images` value makes the source's `for..of` throw inside the same
`try`, which swallows it; as `images` is handled last, the observable
events are the same: none for it.) -/
def oaEventsOfJson (json : Json) : List OAEvent :=
  (match oaDelta json with
    | some d => if jsTruthy d then [OAEvent.token d] else []
    | none => []) ++
  (match oaAnnChain json with
    | some anns => if jsTruthy anns then [OAEvent.sourceBatch anns] else []
    | none => []) ++
  (match oaImagesChain json with
    | some (.arr imgs) =>
      imgs.flatMap (fun img =>
        match oaImgUrl img with
        | some u => if jsTruthy u then [OAEvent.image u] else []
        | none => [])
    | _ => [])

/-- The OpenAI-compatible frame loop over complete frames, with the
network `JSON.parse` modelled by an arbitrary `parse` function: frames
without a `data:` line are skipped, the `[DONE]` sentinel returns
immediately, a frame whose payload fails to parse is skipped silently,
and a parsed frame contributes its events. -/
def oaRun (parse : List Char → Option Json) : List (List Char) → List OAEvent
  | [] => []
  | part :: rest =>
    match framePayload part with
    | none => oaRun parse rest
    | some data =>
      if data = doneTag then []
      else
        match parse data with
        | none => oaRun parse rest
        | some json => oaEventsOfJson json ++ oaRun parse rest

/-- Witness chunkings: the two-byte character é (C3 A9) and the frame
delimiter both straddle chunk boundaries in the first chunking. -/
def witChunks1 : List (List Nat) := [[0xC3], [0xA9, 0x0A], [0x0A, 0x64]]

def witChunks2 : List (List Nat) := [[0xC3, 0xA9, 0x0A, 0x0A, 0x64]]

def frameDoneWit : List Char := "data: [DONE]".toList

def frameTokenWit : List Char := "data: x".toList

/-- JavaScript `event.split("\n")` on a character list. -/
def splitNL : List Char → List (List Char)
  | [] => [[]]
  | c :: rest => if c = '\n' then [] :: splitNL rest else consHead c (splitNL rest)

/-- Payload extraction of the Anthropic-style frame loop: find the
first line starting with `data:` (no pre-trim of the line), strip the
tag and surrounding whitespace. -/
def anthPayload (part : List Char) : Option (List Char) :=
  match (splitNL part).find? (fun l => dataTag.isPrefixOf l) with
  | none => none
  | some dataLine => some (trimChars ((dataLine.drop 5).dropWhile isWs))

/-- Normalized events emitted by the Anthropic-style adapter. -/
inductive AnthEvent where
  | token (text : Json)

/-- Events of one parsed Anthropic frame: a token when the event type
is `content_block_delta` and `json.delta?.text` is truthy. -/
def anthEventsOfJson (json : Json) : List AnthEvent :=
  match jsField json keyType with
  | some (.str t) =>
    if t = typeContentBlockDelta then
      match optField (jsField json keyDelta) keyText with
      | some txt => if jsTruthy txt then [AnthEvent.token txt] else []
      | none => []
    else []
  | _ => []

/-- The Anthropic-style frame loop (no `[DONE]` sentinel exists in this
dialect; a parse failure is skipped silently). -/
def anthRun (parse : List Char → Option Json) : List (List Char) → List AnthEvent
  | [] => []
  | part :: rest =>
    match anthPayload part with
    | none => anthRun parse rest
    | some data =>
      match parse data with
      | none => anthRun parse rest
      | some json => anthEventsOfJson json ++ anthRun parse rest

/-- Normalized events emitted by the Google-style adapter. -/
inductive GoogleEvent where
  | token (text : Json)

/-- The token chain `json.candidates?.[0]?.content?.parts?.[0]?.text`. -/
def googleTextChain (json : Json) : Option Json :=
  optField
    (optIdx0
      (optField (optField (optIdx0 (jsField json keyCandidates)) keyContent) keyParts))
    keyText

def googleEventsOfJson (json : Json) : List GoogleEvent :=
  match googleTextChain json with
  | some txt => if jsTruthy txt then [GoogleEvent.token txt] else []
  | none => []

/-- The Google-style frame loop (same framing as the OpenAI-compatible
one, no `[DONE]` check; a parse failure is skipped silently). -/
def googleRun (parse : List Char → Option Json) : List (List Char) → List GoogleEvent
  | [] => []
  | part :: rest =>
    match framePayload part with
    | none => googleRun parse rest
    | some data =>
      match parse data with
      | none => googleRun parse rest
      | some json => googleEventsOfJson json ++ googleRun parse rest

def xPayloadWit : List Char := "x".toList

theorem urlsOf_nil : urlsOf [] = [] := rfl

theorem urlsOf_cons (c : SourceCitation) (rest : List SourceCitation) :
    urlsOf (c :: rest) = c.url :: urlsOf rest := rfl

theorem urlsOf_append (a b : List SourceCitation) :
    urlsOf (a ++ b) = urlsOf a ++ urlsOf b := by
  simp [urlsOf]

theorem mapGet_mapSet (m : List SourceCitation) (v : SourceCitation) (u : String) :
    mapGet (mapSet m v) u = if v.url = u then some v else mapGet m u := by
  induction m with
  | nil => simp [mapSet, mapGet]
  | cons c rest ih =>
    by_cases hc : c.url = v.url
    · by_cases hu : v.url = u
      · simp [mapSet, hc, mapGet, hu]
      · have hcu : ¬ c.url = u := by rw [hc]; exact hu
        simp [mapSet, hc, mapGet, hu, hcu]
    · by_cases hu : c.url = u
      · have hvu : ¬ v.url = u := by
          intro h
          exact hc (by rw [h, hu])
        have huv : ¬ u = v.url := fun h => hvu h.symm
        simp [mapSet, hc, mapGet, hu, hvu, huv]
      · simp [mapSet, hc, mapGet, hu, ih]

theorem urlsOf_mapSet (m : List SourceCitation) (v : SourceCitation) :
    urlsOf (mapSet m v) =
      if v.url ∈ urlsOf m then urlsOf m else urlsOf m ++ [v.url] := by
  induction m with
  | nil => simp [mapSet, urlsOf]
  | cons c rest ih =>
    by_cases hc : c.url = v.url
    · have hv : v.url = c.url := hc.symm
      have hmem : v.url ∈ urlsOf (c :: rest) := by
        rw [urlsOf_cons, hv]
        exact List.mem_cons_self _ _
      rw [if_pos hmem]
      simp [mapSet, urlsOf_cons, hv]
    · have hne : v.url ≠ c.url := fun h => hc h.symm
      have hstep : mapSet (c :: rest) v = c :: mapSet rest v := by
        simp [mapSet, hc]
      rw [hstep, urlsOf_cons, ih, urlsOf_cons]
      by_cases hm : v.url ∈ urlsOf rest
      · rw [if_pos hm, if_pos (List.mem_cons_of_mem _ hm)]
      · rw [if_neg hm, if_neg ?hmem, List.cons_append]
        case hmem =>
          intro hmemc
          rcases List.mem_cons.mp hmemc with h | h
          · exact hne h
          · exact hm h

theorem mapSet_of_not_mem (m : List SourceCitation) (v : SourceCitation)
    (h : v.url ∉ urlsOf m) : mapSet m v = m ++ [v] := by
  induction m with
  | nil => simp [mapSet]
  | cons c rest ih =>
    rw [urlsOf_cons] at h
    have hc : ¬ c.url = v.url := by
      intro hh
      exact h (by rw [hh]; exact List.mem_cons_self _ _)
    have hrest : v.url ∉ urlsOf rest := fun hm => h (List.mem_cons_of_mem _ hm)
    simp [mapSet, hc, ih hrest]

theorem mapGet_url (m : List SourceCitation) (u : String) (c : SourceCitation)
    (h : mapGet m u = some c) : c.url = u := by
  induction m with
  | nil => simp [mapGet] at h
  | cons d rest ih =>
    by_cases hd : d.url = u
    · simp [mapGet, hd] at h
      rw [← h]
      exact hd
    · simp [mapGet, hd] at h
      exact ih h

theorem mapSet_self (m : List SourceCitation) (c : SourceCitation)
    (h : mapGet m c.url = some c) : mapSet m c = m := by
  induction m with
  | nil => simp [mapGet] at h
  | cons d rest ih =>
    by_cases hd : d.url = c.url
    · simp [mapGet, hd] at h
      simp [mapSet, hd, h]
    · simp [mapGet, hd] at h
      simp [mapSet, hd, ih h]

theorem mapGet_isSome_iff (m : List SourceCitation) (u : String) :
    (mapGet m u).isSome ↔ u ∈ urlsOf m := by
  induction m with
  | nil => simp [mapGet, urlsOf]
  | cons c rest ih =>
    by_cases hc : c.url = u
    · simp [mapGet, hc, urlsOf_cons]
    · have hcu : ¬ u = c.url := fun h => hc h.symm
      rw [urlsOf_cons]
      simp only [mapGet, if_neg hc, List.mem_cons]
      rw [ih]
      constructor
      · exact Or.inr
      · intro hor
        rcases hor with h | h
        · exact absurd h hcu
        · exact h

theorem foldl_mapSet_id (m : List SourceCitation) (h : (urlsOf m).Nodup) :
    m.foldl mapSet [] = m := by
  induction m using List.reverseRecOn with
  | nil => simp
  | append_singleton rest v ih =>
    rw [urlsOf_append, urlsOf_cons, urlsOf_nil] at h
    have hsplit := List.nodup_append.mp h
    have hv : v.url ∉ urlsOf rest := by
      intro hm
      exact (hsplit.2.2 hm) (List.mem_cons_self _ _)
    rw [List.foldl_append, ih hsplit.1]
    simp only [List.foldl_cons, List.foldl_nil]
    exact mapSet_of_not_mem rest v hv

theorem mergeVal_url (m : List SourceCitation) (s : SourceCitation) :
    (mergeVal m s).url = s.url := by
  unfold mergeVal
  cases h : mapGet m s.url <;> simp

theorem mapGet_mergeStep (m : List SourceCitation) (s : SourceCitation) (u : String) :
    mapGet (mergeStep m s) u =
      if s.url = u then some (mergeVal m s) else mapGet m u := by
  unfold mergeStep
  rw [mapGet_mapSet, mergeVal_url]

theorem urlsOf_mergeStep (m : List SourceCitation) (s : SourceCitation) :
    urlsOf (mergeStep m s) =
      if s.url ∈ urlsOf m then urlsOf m else urlsOf m ++ [s.url] := by
  unfold mergeStep
  rw [urlsOf_mapSet, mergeVal_url]

theorem mergeField_title : MergeField (fun c => c.title) :=
  fun _ _ => rfl

theorem mergeField_content : MergeField (fun c => c.content) :=
  fun _ _ => rfl

theorem fieldAt_mergeStep (g : SourceCitation → Option String)
    (hg : MergeField g) (m : List SourceCitation) (s : SourceCitation) (u : String) :
    fieldAt g (mergeStep m s) u =
      if s.url = u then (fieldAt g m u).or (g s) else fieldAt g m u := by
  unfold fieldAt
  rw [mapGet_mergeStep]
  by_cases hs : s.url = u
  · rw [if_pos hs, if_pos hs]
    unfold mergeVal
    rw [← hs]
    cases hmg : mapGet m s.url with
    | none => simp
    | some current => simp [hg current s]
  · rw [if_neg hs, if_neg hs]

theorem foldl_or_init (g : SourceCitation → Option String) (u : String)
    (L : List SourceCitation) (a : Option String) :
    L.foldl (fun a s => if s.url = u then a.or (g s) else a) a =
      a.or (fieldFold g L u) := by
  induction L generalizing a with
  | nil => simp [fieldFold]
  | cons s L ih =>
    have hcons : fieldFold g (s :: L) u =
        (if s.url = u then Option.or none (g s) else none).or (fieldFold g L u) := by
      unfold fieldFold
      simp only [List.foldl_cons]
      exact ih _
    simp only [List.foldl_cons]
    rw [ih, hcons]
    by_cases hs : s.url = u
    · simp only [if_pos hs, Option.none_or]
      rw [Option.or_assoc]
    · simp only [if_neg hs, Option.none_or]

theorem fieldFold_cons (g : SourceCitation → Option String) (u : String)
    (s : SourceCitation) (L : List SourceCitation) :
    fieldFold g (s :: L) u =
      (if s.url = u then g s else none).or (fieldFold g L u) := by
  unfold fieldFold
  simp only [List.foldl_cons]
  rw [foldl_or_init]
  by_cases hs : s.url = u <;> simp [hs, fieldFold]

theorem fieldAt_foldl_mergeStep (g : SourceCitation → Option String)
    (hg : MergeField g) (L : List SourceCitation) (m : List SourceCitation)
    (u : String) :
    fieldAt g (L.foldl mergeStep m) u = (fieldAt g m u).or (fieldFold g L u) := by
  induction L generalizing m with
  | nil => simp [fieldFold]
  | cons s L ih =>
    simp only [List.foldl_cons]
    rw [ih, fieldAt_mergeStep g hg, fieldFold_cons]
    by_cases hs : s.url = u
    · simp only [if_pos hs]
      rw [Option.or_assoc]
    · simp only [if_neg hs, Option.none_or]

theorem fieldFold_eq_none (g : SourceCitation → Option String)
    (L : List SourceCitation) (u : String) (h : fieldFold g L u = none) :
    ∀ s ∈ L, s.url = u → g s = none := by
  induction L with
  | nil => intro s hs; simp at hs
  | cons t L ih =>
    rw [fieldFold_cons] at h
    have hparts : (if t.url = u then g t else none) = none ∧ fieldFold g L u = none := by
      cases hval : (if t.url = u then g t else none) with
      | none => simpa [hval] using h
      | some x => rw [hval] at h; simp [Option.or] at h
    intro s hs hsu
    rcases List.mem_cons.mp hs with hhead | htail
    · subst hhead
      have := hparts.1
      rw [if_pos hsu] at this
      exact this
    · exact ih hparts.2 s htail hsu

theorem urlsOf_subset_mergeStep (m : List SourceCitation) (s : SourceCitation) :
    urlsOf m ⊆ urlsOf (mergeStep m s) := by
  rw [urlsOf_mergeStep]
  by_cases hm : s.url ∈ urlsOf m
  · rw [if_pos hm]
    exact fun a ha => ha
  · rw [if_neg hm]
    exact List.subset_append_left _ _

theorem mem_urlsOf_mergeStep (m : List SourceCitation) (s : SourceCitation) :
    s.url ∈ urlsOf (mergeStep m s) := by
  rw [urlsOf_mergeStep]
  by_cases hm : s.url ∈ urlsOf m
  · rwa [if_pos hm]
  · rw [if_neg hm]
    simp

theorem mem_urlsOf_foldl_of_mem (L : List SourceCitation)
    (m : List SourceCitation) (u : String) (h : u ∈ urlsOf m) :
    u ∈ urlsOf (L.foldl mergeStep m) := by
  induction L generalizing m with
  | nil => exact h
  | cons t L ih =>
    simp only [List.foldl_cons]
    exact ih _ (urlsOf_subset_mergeStep m t h)

theorem mem_urlsOf_foldl_mergeStep (L : List SourceCitation)
    (m : List SourceCitation) (s : SourceCitation) (hs : s ∈ L) :
    s.url ∈ urlsOf (L.foldl mergeStep m) := by
  revert hs
  induction L generalizing m with
  | nil =>
    intro hs
    simp at hs
  | cons t L ih =>
    intro hs
    simp only [List.foldl_cons]
    rcases List.mem_cons.mp hs with hhead | htail
    · subst hhead
      exact mem_urlsOf_foldl_of_mem L _ _ (mem_urlsOf_mergeStep m s)
    · exact ih (mergeStep m t) htail

theorem nodup_urlsOf_mapSet (m : List SourceCitation) (v : SourceCitation)
    (h : (urlsOf m).Nodup) : (urlsOf (mapSet m v)).Nodup := by
  rw [urlsOf_mapSet]
  by_cases hm : v.url ∈ urlsOf m
  · rwa [if_pos hm]
  · rw [if_neg hm]
    rw [List.nodup_append]
    exact ⟨h, List.nodup_singleton _, by
      intro a ha hmem
      rw [List.mem_singleton] at hmem
      exact hm (hmem ▸ ha)⟩

theorem nodup_urlsOf_mergeStep (m : List SourceCitation) (s : SourceCitation)
    (h : (urlsOf m).Nodup) : (urlsOf (mergeStep m s)).Nodup :=
  nodup_urlsOf_mapSet m (mergeVal m s) h

theorem nodup_urlsOf_foldl_mergeStep (L : List SourceCitation)
    (m : List SourceCitation) (h : (urlsOf m).Nodup) :
    (urlsOf (L.foldl mergeStep m)).Nodup := by
  induction L generalizing m with
  | nil => exact h
  | cons s L ih =>
    simp only [List.foldl_cons]
    exact ih _ (nodup_urlsOf_mergeStep m s h)

theorem nodup_urlsOf_foldl_mapSet (E : List SourceCitation)
    (m : List SourceCitation) (h : (urlsOf m).Nodup) :
    (urlsOf (E.foldl mapSet m)).Nodup := by
  induction E generalizing m with
  | nil => exact h
  | cons v E ih =>
    simp only [List.foldl_cons]
    exact ih _ (nodup_urlsOf_mapSet m v h)

theorem nodup_urlsOf_mergeSources (existing : Option (List SourceCitation))
    (incoming : List SourceCitation) :
    (urlsOf (mergeSources existing incoming)).Nodup := by
  unfold mergeSources
  exact nodup_urlsOf_foldl_mergeStep _ _
    (nodup_urlsOf_foldl_mapSet _ [] (by simp [urlsOf]))

theorem foldl_fixed {α β : Type} (f : β → α → β) (m : β) (L : List α)
    (h : ∀ s ∈ L, f m s = m) : L.foldl f m = m := by
  induction L with
  | nil => rfl
  | cons s L ih =>
    simp only [List.foldl_cons]
    rw [h s (List.mem_cons_self _ _)]
    exact ih (fun t ht => h t (List.mem_cons_of_mem _ ht))

theorem mergeStep_fixed_of_fold (seed : List SourceCitation)
    (L : List SourceCitation) (s : SourceCitation) (hs : s ∈ L) :
    mergeStep (L.foldl mergeStep seed) s = L.foldl mergeStep seed := by
  set M := L.foldl mergeStep seed with hM
  have hmem : s.url ∈ urlsOf M := mem_urlsOf_foldl_mergeStep L seed s hs
  have hsome := (mapGet_isSome_iff M s.url).mpr hmem
  obtain ⟨current, hcur⟩ := Option.isSome_iff_exists.mp hsome
  have hcu : current.url = s.url := mapGet_url M s.url current hcur
  have hfield : ∀ (g : SourceCitation → Option String), MergeField g →
      (g current).or (g s) = g current := by
    intro g hg
    cases hgc : g current with
    | some t => rfl
    | none =>
      have hfa : fieldAt g M s.url = none := by
        unfold fieldAt
        rw [hcur, Option.some_bind]
        exact hgc
      rw [hM, fieldAt_foldl_mergeStep g hg] at hfa
      have hFnone : fieldFold g L s.url = none := by
        cases hF : fieldFold g L s.url with
        | none => rfl
        | some x =>
          rw [hF] at hfa
          cases hseed : fieldAt g seed s.url <;> simp [hseed, Option.or] at hfa
      have hgs : g s = none := fieldFold_eq_none g L s.url hFnone s hs rfl
      rw [hgs]
      rfl
  have hval : mergeVal M s = current := by
    unfold mergeVal
    rw [hcur]
    have ht := hfield (fun c => c.title) mergeField_title
    have hc2 := hfield (fun c => c.content) mergeField_content
    cases current with
    | mk curl ctitle ccontent =>
      simp only at ht hc2
      simp only at hcu
      simp only [SourceCitation.mk.injEq]
      exact ⟨hcu.symm, ht, hc2⟩
  unfold mergeStep
  rw [hval]
  refine mapSet_self M current ?_
  rw [hcu]
  exact hcur

/-- C1: the citation merge function is pure (it is a function) and
idempotent: merging the same incoming batch a second time leaves the
merged list unchanged, for every pair of citation lists. -/
theorem mergeSources_idempotent (S L : List SourceCitation) :
    mergeSources (some (mergeSources (some S) L)) L = mergeSources (some S) L := by
  have hM : mergeSources (some S) L = L.foldl mergeStep (S.foldl mapSet []) := rfl
  have hnd : (urlsOf (mergeSources (some S) L)).Nodup :=
    nodup_urlsOf_mergeSources _ _
  have hseed : mergeSources (some (mergeSources (some S) L)) L
      = L.foldl mergeStep ((mergeSources (some S) L).foldl mapSet []) := rfl
  rw [hseed, foldl_mapSet_id _ hnd]
  refine foldl_fixed mergeStep _ L ?_
  intro s hs
  rw [hM]
  exact mergeStep_fixed_of_fold (S.foldl mapSet []) L s hs

/-- C2 counterexample: the claim says a non-empty current field is kept
"and the incoming value adopted otherwise"; but with the current title
being the empty string (which is not non-empty) and the incoming title
`"X"`, the merge keeps the empty string — the source uses nullish
coalescing (`??`), which treats `""` as present — so the incoming value
is not adopted, refuting the claim at this input. -/
theorem mergeSources_keeps_empty_title :
    mergeSources (some [{ url := urlA, title := some emptyStr, content := none }])
        [{ url := urlA, title := some titleX, content := none }] =
      [{ url := urlA, title := some emptyStr, content := none }] ∧
    mergeSources (some [{ url := urlA, title := some emptyStr, content := none }])
        [{ url := urlA, title := some titleX, content := none }] ≠
      [{ url := urlA, title := some titleX, content := none }] := by
  constructor
  · decide
  · decide

theorem mapGet_of_mem_nodup (S : List SourceCitation) (c : SourceCitation)
    (hnd : (urlsOf S).Nodup) (hc : c ∈ S) : mapGet S c.url = some c := by
  induction S with
  | nil => simp at hc
  | cons d rest ih =>
    rw [urlsOf_cons] at hnd
    rcases List.mem_cons.mp hc with hhead | htail
    · subst hhead
      simp [mapGet]
    · have hd : ¬ d.url = c.url := by
        intro h
        have hmem : c.url ∈ urlsOf rest := List.mem_map.mpr ⟨c, htail, rfl⟩
        rw [← h] at hmem
        exact (List.nodup_cons.mp hnd).1 hmem
      simp only [mapGet, if_neg hd]
      exact ih (List.nodup_cons.mp hnd).2 htail

/-- C2 (amended): for an existing citation list with unique urls, a
merge keeps each current entry's `title`/`content` whenever the field is
defined — including when it is the empty string — and adopts the first
defined incoming value only when the current field is absent; in
particular a defined (hence any non-empty) title or content is never
changed by a later merge, regardless of the incoming values. -/
theorem mergeSources_field_stability (S L : List SourceCitation)
    (c : SourceCitation) (hnd : (urlsOf S).Nodup) (hc : c ∈ S) :
    ∃ cNew, mapGet (mergeSources (some S) L) c.url = some cNew ∧
      cNew.url = c.url ∧
      cNew.title = c.title.or (fieldFold (fun x => x.title) L c.url) ∧
      cNew.content = c.content.or (fieldFold (fun x => x.content) L c.url) ∧
      (∀ t, c.title = some t → cNew.title = some t) ∧
      (∀ t, c.content = some t → cNew.content = some t) := by
  have hM : mergeSources (some S) L = L.foldl mergeStep (S.foldl mapSet []) := rfl
  rw [hM, foldl_mapSet_id S hnd]
  have hgetS : mapGet S c.url = some c := mapGet_of_mem_nodup S c hnd hc
  have hmemS : c.url ∈ urlsOf S := (mapGet_isSome_iff S c.url).mp (by rw [hgetS]; rfl)
  have hmem : c.url ∈ urlsOf (L.foldl mergeStep S) :=
    mem_urlsOf_foldl_of_mem L S c.url hmemS
  obtain ⟨cNew, hcur⟩ :=
    Option.isSome_iff_exists.mp ((mapGet_isSome_iff _ c.url).mpr hmem)
  have htitle : cNew.title = c.title.or (fieldFold (fun x => x.title) L c.url) := by
    have := fieldAt_foldl_mergeStep (fun x => x.title) mergeField_title L S c.url
    unfold fieldAt at this
    rw [hcur, hgetS, Option.some_bind, Option.some_bind] at this
    exact this
  have hcontent : cNew.content = c.content.or (fieldFold (fun x => x.content) L c.url) := by
    have := fieldAt_foldl_mergeStep (fun x => x.content) mergeField_content L S c.url
    unfold fieldAt at this
    rw [hcur, hgetS, Option.some_bind, Option.some_bind] at this
    exact this
  refine ⟨cNew, hcur, mapGet_url _ _ _ hcur, htitle, hcontent, ?_, ?_⟩
  · intro t ht
    rw [htitle, ht]
    rfl
  · intro t ht
    rw [hcontent, ht]
    rfl

theorem mergeSources_field_stability_witness :
    ∃ cNew, mapGet (mergeSources (some witS) witL) witC.url = some cNew ∧
      cNew.url = witC.url ∧
      cNew.title = witC.title.or (fieldFold (fun x => x.title) witL witC.url) ∧
      cNew.content = witC.content.or (fieldFold (fun x => x.content) witL witC.url) ∧
      (∀ t, witC.title = some t → cNew.title = some t) ∧
      (∀ t, witC.content = some t → cNew.content = some t) :=
  mergeSources_field_stability witS witL witC (by decide) (by decide)

theorem urlsOf_foldl_mapSet_eq (E : List SourceCitation)
    (m : List SourceCitation) :
    urlsOf (E.foldl mapSet m) = (urlsOf E).foldl insertUrl (urlsOf m) := by
  induction E generalizing m with
  | nil => rfl
  | cons v E ih =>
    simp only [List.foldl_cons, urlsOf_cons]
    rw [ih]
    congr 1
    rw [urlsOf_mapSet]
    unfold insertUrl
    rfl

theorem urlsOf_foldl_mergeStep_eq (L : List SourceCitation)
    (m : List SourceCitation) :
    urlsOf (L.foldl mergeStep m) = (urlsOf L).foldl insertUrl (urlsOf m) := by
  induction L generalizing m with
  | nil => rfl
  | cons s L ih =>
    simp only [List.foldl_cons, urlsOf_cons]
    rw [ih]
    congr 1
    rw [urlsOf_mergeStep]
    unfold insertUrl
    rfl

theorem foldl_insertUrl_append_decomp (V : List String) (a b : List String) :
    V.foldl insertUrl (a ++ b) =
      a ++ (V.filter (fun u => decide (u ∉ a))).foldl insertUrl b := by
  induction V generalizing b with
  | nil => simp
  | cons u V ih =>
    simp only [List.foldl_cons, List.filter_cons]
    by_cases ha : u ∈ a
    · have hd : decide (u ∉ a) = false := by simp [ha]
      rw [hd]
      have hins : insertUrl (a ++ b) u = a ++ b := by
        unfold insertUrl
        rw [if_pos (List.mem_append.mpr (Or.inl ha))]
      rw [hins]
      simp only [Bool.false_eq_true, if_false]
      exact ih b
    · have hd : decide (u ∉ a) = true := by simp [ha]
      rw [hd]
      simp only [if_true]
      by_cases hb : u ∈ b
      · have h1 : insertUrl (a ++ b) u = a ++ b := by
          unfold insertUrl
          rw [if_pos (List.mem_append.mpr (Or.inr hb))]
        have h2 : insertUrl b u = b := by
          unfold insertUrl
          rw [if_pos hb]
        rw [h1, List.foldl_cons, h2]
        exact ih b
      · have hnm : u ∉ a ++ b := by
          intro hm
          rcases List.mem_append.mp hm with h | h
          · exact ha h
          · exact hb h
        have h1 : insertUrl (a ++ b) u = a ++ (b ++ [u]) := by
          unfold insertUrl
          rw [if_neg hnm, List.append_assoc]
        have h2 : insertUrl b u = b ++ [u] := by
          unfold insertUrl
          rw [if_neg hb]
        rw [h1, List.foldl_cons, h2]
        exact ih (b ++ [u])

/-- C3: a merged citation list contains at most one citation per
distinct url; when the existing list has unique urls (the documented
invariant), its urls keep their original positions and the newly-seen
urls follow them, deduplicated in first-appearance order. -/
theorem mergeSources_url_order (S L : List SourceCitation) :
    (urlsOf (mergeSources (some S) L)).Nodup ∧
    ((urlsOf S).Nodup →
      urlsOf (mergeSources (some S) L) =
        urlsOf S ++
          ((urlsOf L).filter (fun u => decide (u ∉ urlsOf S))).foldl insertUrl []) := by
  constructor
  · exact nodup_urlsOf_mergeSources _ _
  · intro hnd
    have hM : mergeSources (some S) L = L.foldl mergeStep (S.foldl mapSet []) := rfl
    rw [hM, urlsOf_foldl_mergeStep_eq, foldl_mapSet_id S hnd]
    have hdec := foldl_insertUrl_append_decomp (urlsOf L) (urlsOf S) []
    rw [List.append_nil] at hdec
    exact hdec

theorem mergeSources_url_order_witness :
    (urlsOf (mergeSources (some witS3) witL3)).Nodup ∧
    urlsOf (mergeSources (some witS3) witL3) =
      urlsOf witS3 ++
        ((urlsOf witL3).filter (fun u => decide (u ∉ urlsOf witS3))).foldl insertUrl [] :=
  ⟨(mergeSources_url_order witS3 witL3).1,
   (mergeSources_url_order witS3 witL3).2 (by decide)⟩

theorem extractOneAnn_sound (a : Json) (c : SourceCitation)
    (hc : c ∈ extractOneAnn a) :
    c.url ≠ "" ∧ c.title = jsStrField (probeCitation a) keyTitle ∧
      c.content = jsStrField (probeCitation a) keyContent := by
  unfold extractOneAnn at hc
  by_cases hobj : jsIsObjectLike a = true
  · rw [if_pos hobj] at hc
    by_cases hurl : extractUrl a = ""
    · rw [if_pos hurl] at hc
      simp at hc
    · rw [if_neg hurl] at hc
      rw [List.mem_singleton] at hc
      subst hc
      exact ⟨hurl, rfl, rfl⟩
  · rw [if_neg hobj] at hc
    simp at hc

theorem extractSources_eq (anns : Json) :
    extractSources anns = (jsElems anns).flatMap extractOneAnn := by
  cases anns <;> rfl

/-- C10: every citation produced by the annotation extraction has a
non-empty url; an entry that is not object-like, or that offers a
string url neither in its probed citation object nor on itself,
contributes nothing; and title/content come from the probed citation
object's string fields only (non-string fields become `none`). -/
theorem extractSources_url_sound (anns a : Json) (ha : a ∈ jsElems anns) :
    (∀ c ∈ extractSources anns, c.url ≠ "") ∧
    extractSources anns = (jsElems anns).flatMap extractOneAnn ∧
    (jsIsObjectLike a = false → extractOneAnn a = []) ∧
    (jsStrField (probeCitation a) keyUrl = none → jsStrField a keyUrl = none →
      extractOneAnn a = []) ∧
    (∀ c ∈ extractOneAnn a,
      c.title = jsStrField (probeCitation a) keyTitle ∧
      c.content = jsStrField (probeCitation a) keyContent) := by
  refine ⟨?_, extractSources_eq anns, ?_, ?_, ?_⟩
  · intro c hc
    rw [extractSources_eq] at hc
    obtain ⟨a2, ha2, hc2⟩ := List.mem_flatMap.mp hc
    exact (extractOneAnn_sound a2 c hc2).1
  · intro hobj
    unfold extractOneAnn
    rw [if_neg (by rw [hobj]; exact Bool.false_ne_true)]
  · intro h1 h2
    have hurl : extractUrl a = "" := by
      unfold extractUrl
      rw [h1, h2]
    unfold extractOneAnn
    by_cases hobj : jsIsObjectLike a = true
    · rw [if_pos hobj, if_pos hurl]
    · rw [if_neg hobj]
  · intro c hc
    exact ⟨(extractOneAnn_sound a c hc).2.1, (extractOneAnn_sound a c hc).2.2⟩

theorem extractSources_url_sound_witness :
    (∀ c ∈ extractSources witAnns, c.url ≠ "") ∧
    extractSources witAnns = (jsElems witAnns).flatMap extractOneAnn ∧
    (jsIsObjectLike witAnnEntry = false → extractOneAnn witAnnEntry = []) ∧
    (jsStrField (probeCitation witAnnEntry) keyUrl = none →
      jsStrField witAnnEntry keyUrl = none → extractOneAnn witAnnEntry = []) ∧
    (∀ c ∈ extractOneAnn witAnnEntry,
      c.title = jsStrField (probeCitation witAnnEntry) keyTitle ∧
      c.content = jsStrField (probeCitation witAnnEntry) keyContent) :=
  extractSources_url_sound witAnns witAnnEntry (List.Mem.head _)

/-- C4: `buildContext` keeps every user message unconditionally, keeps
an assistant message exactly when its `(modelId, providerId)` pair
equals the target, and therefore never includes an assistant message
tagged with a different model or provider: per-model context isolation. -/
theorem buildContext_isolation (log : List Message) (tm : String)
    (tp : ProviderId) (m : Message) :
    (m.role = Role.user → (m ∈ buildContext log tm tp ↔ m ∈ log)) ∧
    (m.role = Role.assistant →
      (m ∈ buildContext log tm tp ↔
        m ∈ log ∧ m.modelId = some tm ∧ m.providerId = some tp)) ∧
    (∀ tm2 tp2, m ∈ log → m.role = Role.assistant → m.modelId = some tm2 →
      m.providerId = some tp2 → ¬ (tm2 = tm ∧ tp2 = tp) →
      m ∉ buildContext log tm tp) := by
  refine ⟨?_, ?_, ?_⟩
  · intro hrole
    unfold buildContext
    rw [List.mem_filter]
    constructor
    · exact fun h => h.1
    · intro hmem
      refine ⟨hmem, ?_⟩
      unfold keepForModel
      rw [if_pos hrole]
  · intro hrole
    unfold buildContext
    rw [List.mem_filter]
    constructor
    · intro h
      refine ⟨h.1, ?_, ?_⟩
      · have hk := h.2
        unfold keepForModel at hk
        rw [if_neg (by rw [hrole]; intro hh; cases hh)] at hk
        by_cases hcond : m.role = Role.assistant ∧ m.modelId = some tm ∧
            m.providerId = some tp
        · exact hcond.2.1
        · rw [if_neg hcond] at hk
          cases hk
      · have hk := h.2
        unfold keepForModel at hk
        rw [if_neg (by rw [hrole]; intro hh; cases hh)] at hk
        by_cases hcond : m.role = Role.assistant ∧ m.modelId = some tm ∧
            m.providerId = some tp
        · exact hcond.2.2
        · rw [if_neg hcond] at hk
          cases hk
    · intro h
      refine ⟨h.1, ?_⟩
      unfold keepForModel
      rw [if_neg (by rw [hrole]; intro hh; cases hh)]
      rw [if_pos ⟨hrole, h.2.1, h.2.2⟩]
  · intro tm2 tp2 hmem hrole hmid hpid hne hin
    unfold buildContext at hin
    rw [List.mem_filter] at hin
    have hk := hin.2
    unfold keepForModel at hk
    rw [if_neg (by rw [hrole]; intro hh; cases hh)] at hk
    by_cases hcond : m.role = Role.assistant ∧ m.modelId = some tm ∧
        m.providerId = some tp
    · refine hne ⟨?_, ?_⟩
      · have := hcond.2.1
        rw [hmid] at this
        exact (Option.some.injEq _ _ ▸ this : some tm2 = some tm) |> Option.some.inj
      · have := hcond.2.2
        rw [hpid] at this
        exact Option.some.inj this
    · rw [if_neg hcond] at hk
      cases hk

theorem buildContext_isolation_witness :
    (msgUser ∈ buildContext witLog modelA ProviderId.openrouter ↔ msgUser ∈ witLog) ∧
    (msgA ∈ buildContext witLog modelA ProviderId.openrouter ↔
      msgA ∈ witLog ∧ msgA.modelId = some modelA ∧
        msgA.providerId = some ProviderId.openrouter) ∧
    msgB ∉ buildContext witLog modelA ProviderId.openrouter :=
  ⟨(buildContext_isolation witLog modelA ProviderId.openrouter msgUser).1 rfl,
   (buildContext_isolation witLog modelA ProviderId.openrouter msgA).2.1 rfl,
   (buildContext_isolation witLog modelA ProviderId.openrouter msgB).2.2
     modelB ProviderId.openrouter (by decide) rfl rfl rfl (by decide)⟩

/-- C9: the turn-level stop aborts every registered cancellation handle
and clears the registry; every streaming message keeps its id, role,
content, images, sources, model and provider and merely stops
streaming; a non-streaming message is left entirely unchanged; and a
task aborted by cancellation only clears the flag of its own message,
appending no error text. -/
theorem stopStreaming_spec (controllers : List String) (msgs : List Message)
    (mid : String) (i : Nat) (old : Message) (h : msgs[i]? = some old) :
    (stopStreaming controllers msgs).aborted = controllers ∧
    (stopStreaming controllers msgs).controllers = [] ∧
    (∃ mNew, (stopStreaming controllers msgs).messages[i]? = some mNew ∧
      mNew.isStreaming = false ∧
      mNew.id = old.id ∧ mNew.role = old.role ∧ mNew.content = old.content ∧
      mNew.modelId = old.modelId ∧ mNew.providerId = old.providerId ∧
      mNew.images = old.images ∧ mNew.sources = old.sources ∧
      mNew.attachments = old.attachments ∧
      (old.isStreaming = false → mNew = old)) ∧
    (∃ mAb, (onAbortError msgs mid)[i]? = some mAb ∧
      mAb.content = old.content ∧ mAb.images = old.images ∧
      mAb.sources = old.sources ∧
      (old.id = mid → mAb.isStreaming = false) ∧
      (old.id ≠ mid → mAb = old)) := by
  refine ⟨rfl, rfl, ?_, ?_⟩
  · cases hs : old.isStreaming with
    | true =>
      refine ⟨{ old with isStreaming := false }, ?_, rfl, rfl, rfl, rfl, rfl,
        rfl, rfl, rfl, rfl, ?_⟩
      · show (stopStreamingMessages msgs)[i]? = _
        unfold stopStreamingMessages
        rw [List.getElem?_map, h]
        simp [hs]
      · intro hf
        cases hf
    | false =>
      refine ⟨old, ?_, hs, rfl, rfl, rfl, rfl, rfl, rfl, rfl, rfl, fun _ => rfl⟩
      show (stopStreamingMessages msgs)[i]? = _
      unfold stopStreamingMessages
      rw [List.getElem?_map, h]
      simp [hs]
  · by_cases hid : old.id = mid
    · refine ⟨{ old with isStreaming := false }, ?_, rfl, rfl, rfl,
        fun _ => rfl, ?_⟩
      · unfold onAbortError
        rw [List.getElem?_map, h]
        simp [hid]
      · intro hne
        exact absurd hid hne
    · refine ⟨old, ?_, rfl, rfl, rfl, ?_, fun _ => rfl⟩
      · unfold onAbortError
        rw [List.getElem?_map, h]
        simp [hid]
      · intro hidm
        exact absurd hidm hid

theorem stopStreaming_spec_witness :
    (stopStreaming [idA] witStopMsgs).aborted = [idA] ∧
    (stopStreaming [idA] witStopMsgs).controllers = [] ∧
    (∃ mNew, (stopStreaming [idA] witStopMsgs).messages[0]? = some mNew ∧
      mNew.isStreaming = false ∧
      mNew.id = msgStreamingWit.id ∧ mNew.role = msgStreamingWit.role ∧
      mNew.content = msgStreamingWit.content ∧
      mNew.modelId = msgStreamingWit.modelId ∧
      mNew.providerId = msgStreamingWit.providerId ∧
      mNew.images = msgStreamingWit.images ∧
      mNew.sources = msgStreamingWit.sources ∧
      mNew.attachments = msgStreamingWit.attachments ∧
      (msgStreamingWit.isStreaming = false → mNew = msgStreamingWit)) ∧
    (∃ mAb, (onAbortError witStopMsgs idA)[0]? = some mAb ∧
      mAb.content = msgStreamingWit.content ∧
      mAb.images = msgStreamingWit.images ∧
      mAb.sources = msgStreamingWit.sources ∧
      (msgStreamingWit.id = idA → mAb.isStreaming = false) ∧
      (msgStreamingWit.id ≠ idA → mAb = msgStreamingWit)) :=
  stopStreaming_spec [idA] witStopMsgs idA 0 msgStreamingWit rfl

/-- C8: dispatching with an empty apiKey fails immediately with the
configuration error, before any adapter (and hence any network call) is
selected; with a non-empty key the adapter of the provider's family is
invoked. -/
theorem streamProviderResponse_key_check (pid : ProviderId) (key : String) :
    (key = "" → streamProviderResponse pid key = .error missingKeyError) ∧
    (key ≠ "" → streamProviderResponse pid key =
      .ok (match (PROVIDERS pid).type with
           | .openai => .openaiCompatible (PROVIDERS pid).baseUrl
           | .anthropic => .anthropicStyle
           | .google => .googleStyle)) := by
  constructor
  · intro hk
    unfold streamProviderResponse
    rw [if_pos hk]
  · intro hk
    unfold streamProviderResponse
    rw [if_neg hk]
    cases h2 : (PROVIDERS pid).type <;> simp [h2]

theorem streamProviderResponse_key_check_witness :
    streamProviderResponse ProviderId.anthropic emptyStr = .error missingKeyError ∧
    streamProviderResponse ProviderId.openrouter apiKeySample =
      .ok (.openaiCompatible (PROVIDERS ProviderId.openrouter).baseUrl) :=
  ⟨(streamProviderResponse_key_check ProviderId.anthropic emptyStr).1 rfl,
   (streamProviderResponse_key_check ProviderId.openrouter apiKeySample).2 (by decide)⟩

theorem consHead_ne_nil (c : Char) (ss : List (List Char)) : consHead c ss ≠ [] := by
  cases ss <;> simp [consHead]

theorem splitOnNN_ne_nil (l : List Char) : splitOnNN l ≠ [] := by
  induction l using splitOnNN.induct with
  | case1 => simp [splitOnNN]
  | case2 c => simp [splitOnNN, consHead]
  | case3 c d rest h ih => simp [splitOnNN, h]
  | case4 c d rest h ih =>
    simp only [splitOnNN, if_neg h]
    exact consHead_ne_nil _ _

theorem splitOnNN_eq_single (l : List Char) :
    ∀ s, splitOnNN l = [s] → s = l := by
  induction l using splitOnNN.induct with
  | case1 =>
    intro s h
    simp [splitOnNN] at h
    exact h
  | case2 c =>
    intro s h
    simp [splitOnNN, consHead] at h
    exact h.symm
  | case3 c d rest h ih =>
    intro s hs
    obtain ⟨hc, hd⟩ := h
    subst hc
    subst hd
    simp only [splitOnNN, if_pos (And.intro rfl rfl)] at hs
    cases hss : splitOnNN rest with
    | nil => exact absurd hss (splitOnNN_ne_nil rest)
    | cons a as =>
      rw [hss] at hs
      simp at hs
  | case4 c d rest h ih =>
    intro s hs
    simp only [splitOnNN, if_neg h] at hs
    cases hss : splitOnNN (d :: rest) with
    | nil => exact absurd hss (splitOnNN_ne_nil _)
    | cons a as =>
      rw [hss] at hs
      cases as with
      | nil =>
        simp only [consHead] at hs
        have ha : a = d :: rest := ih a hss
        have hsc : s = c :: a := by
          have := List.cons.injEq (c :: a) [] s [] ▸ hs
          simp at hs
          exact hs.symm
        rw [hsc, ha]
      | cons a2 as2 =>
        simp only [consHead] at hs
        simp at hs

theorem getLastD_append_right {α : Type} (A B : List α) (d : α) (hB : B ≠ []) :
    (A ++ B).getLastD d = B.getLastD d := by
  rw [List.getLastD_eq_getLast?, List.getLastD_eq_getLast?, List.getLast?_append]
  cases hB2 : B.getLast? with
  | none => exact absurd (List.getLast?_eq_none_iff.mp hB2) hB
  | some x => rfl

theorem dropLast_append_right {α : Type} (A B : List α) (hB : B ≠ []) :
    (A ++ B).dropLast = A ++ B.dropLast := by
  rw [List.dropLast_append]
  cases B with
  | nil => exact absurd rfl hB
  | cons x xs => simp

theorem splitOnNN_append (a b : List Char) :
    splitOnNN (a ++ b) =
      (splitOnNN a).dropLast ++ splitOnNN ((splitOnNN a).getLastD [] ++ b) := by
  induction a using splitOnNN.induct with
  | case1 => simp [splitOnNN]
  | case2 c =>
    have h1 : splitOnNN [c] = [[c]] := rfl
    rw [h1]
    simp [List.getLastD]
  | case3 c d rest h ih =>
    obtain ⟨hc, hd⟩ := h
    subst hc
    subst hd
    have hl : splitOnNN (('\n' : Char) :: '\n' :: (rest ++ b)) =
        [] :: splitOnNN (rest ++ b) := by
      simp [splitOnNN]
    have hr : splitOnNN (('\n' : Char) :: '\n' :: rest) = [] :: splitOnNN rest := by
      simp [splitOnNN]
    simp only [List.cons_append]
    rw [hl, hr, ih]
    cases hS : splitOnNN rest with
    | nil => exact absurd hS (splitOnNN_ne_nil rest)
    | cons s ss =>
      simp [List.getLastD_eq_getLast?]
  | case4 c d rest h ih =>
    have hl : splitOnNN (c :: d :: (rest ++ b)) =
        consHead c (splitOnNN (d :: (rest ++ b))) := by
      simp only [splitOnNN, if_neg h]
    have hr : splitOnNN (c :: d :: rest) = consHead c (splitOnNN (d :: rest)) := by
      simp only [splitOnNN, if_neg h]
    cases hS : splitOnNN (d :: rest) with
    | nil => exact absurd hS (splitOnNN_ne_nil _)
    | cons s ss =>
      cases ss with
      | nil =>
        have hs : s = d :: rest := splitOnNN_eq_single (d :: rest) s hS
        have h1 : (splitOnNN (c :: d :: rest)).dropLast = [] := by
          rw [hr, hS]
          rfl
        have h2 : (splitOnNN (c :: d :: rest)).getLastD [] = c :: s := by
          rw [hr, hS]
          rfl
        rw [h1, h2, List.nil_append, hs]
      | cons s2 ss2 =>
        have h3 : splitOnNN ((c :: d :: rest) ++ b) =
            consHead c (splitOnNN ((d :: rest) ++ b)) := by
          simp only [List.cons_append]
          exact hl
        have h4 : splitOnNN (c :: d :: rest) = (c :: s) :: s2 :: ss2 := by
          rw [hr, hS]
          rfl
        rw [h3, ih, hS, h4]
        have h5 : ((c :: s) :: s2 :: ss2).getLastD ([] : List Char) =
            (s :: s2 :: ss2).getLastD [] := by
          rw [List.getLastD_eq_getLast?, List.getLastD_eq_getLast?,
            List.getLast?_cons_cons, List.getLast?_cons_cons]
        rw [h5]
        simp only [consHead, List.dropLast_cons₂, List.cons_append]

theorem utf8Feed_out_acc (chunk : List Nat) (p : List Nat) (out : List Char) :
    chunk.foldl
        (fun st b =>
          let r := utf8Step st.1 b
          (r.1, st.2 ++ r.2))
        (p, out) =
      ((utf8FeedFrom p chunk).1, out ++ (utf8FeedFrom p chunk).2) := by
  induction chunk generalizing p out with
  | nil => simp [utf8FeedFrom]
  | cons b chunk ih =>
    have hcons : utf8FeedFrom p (b :: chunk) =
        ((utf8FeedFrom (utf8Step p b).1 chunk).1,
          (utf8Step p b).2 ++ (utf8FeedFrom (utf8Step p b).1 chunk).2) := by
      show chunk.foldl _ ((utf8Step p b).1, [] ++ (utf8Step p b).2) = _
      rw [ih]
      simp
    simp only [List.foldl_cons]
    rw [ih, hcons]
    simp

theorem utf8FeedFrom_append (p : List Nat) (c1 c2 : List Nat) :
    utf8FeedFrom p (c1 ++ c2) =
      ((utf8FeedFrom (utf8FeedFrom p c1).1 c2).1,
       (utf8FeedFrom p c1).2 ++ (utf8FeedFrom (utf8FeedFrom p c1).1 c2).2) := by
  show (c1 ++ c2).foldl _ (p, []) = _
  rw [List.foldl_append]
  have h1 : c1.foldl
      (fun st b =>
        let r := utf8Step st.1 b
        (r.1, st.2 ++ r.2))
      (p, []) = ((utf8FeedFrom p c1).1, (utf8FeedFrom p c1).2) := by
    rw [Prod.mk.eta]
    rfl
  rw [h1]
  exact utf8Feed_out_acc c2 (utf8FeedFrom p c1).1 (utf8FeedFrom p c1).2

theorem feedChunk_comp (st : DecoderState) (c1 c2 : List Nat) :
    feedChunk (feedChunk st c1) c2 = feedChunk st (c1 ++ c2) := by
  unfold feedChunk
  rw [utf8FeedFrom_append]
  have hsplit := splitOnNN_append (st.buffer ++ (utf8FeedFrom st.pending c1).2)
    ((utf8FeedFrom (utf8FeedFrom st.pending c1).1 c2).2)
  have hne := splitOnNN_ne_nil
    ((splitOnNN (st.buffer ++ (utf8FeedFrom st.pending c1).2)).getLastD [] ++
      (utf8FeedFrom (utf8FeedFrom st.pending c1).1 c2).2)
  simp only [DecoderState.mk.injEq]
  refine ⟨trivial, ?_, ?_⟩
  · rw [← List.append_assoc, hsplit]
    rw [getLastD_append_right _ _ _ hne]
  · rw [← List.append_assoc, hsplit]
    rw [dropLast_append_right _ _ hne, List.append_assoc]

theorem feedChunks_eq_single (chunks : List (List Nat)) :
    feedChunks chunks = feedChunk initDecoder chunks.flatten := by
  induction chunks using List.reverseRecOn with
  | nil => rfl
  | append_singleton cs c ih =>
    show (cs ++ [c]).foldl feedChunk initDecoder = _
    rw [List.foldl_append]
    have h1 : cs.foldl feedChunk initDecoder = feedChunks cs := rfl
    rw [h1, ih]
    simp only [List.foldl_cons, List.foldl_nil]
    rw [feedChunk_comp]
    rw [List.flatten_append]
    simp

/-- C5: chunk-boundary independence of the frame decoder.  Any two ways
of splitting one complete SSE byte stream into chunks produce the same
decoder state — the same ordered frame list, carry-over buffer and text
decoder state, even when a multi-byte character or the frame delimiter
straddles a chunk boundary — and hence the same ordered event sequence
under any payload interpretation. -/
theorem decoder_chunk_invariance (parse : List Char → Option Json)
    (cs1 cs2 : List (List Nat)) (h : cs1.flatten = cs2.flatten) :
    feedChunks cs1 = feedChunks cs2 ∧
    oaRun parse (feedChunks cs1).frames = oaRun parse (feedChunks cs2).frames := by
  have hstate : feedChunks cs1 = feedChunks cs2 := by
    rw [feedChunks_eq_single, feedChunks_eq_single, h]
  exact ⟨hstate, by rw [hstate]⟩

theorem decoder_chunk_invariance_witness :
    feedChunks witChunks1 = feedChunks witChunks2 ∧
    oaRun (fun _ => none) (feedChunks witChunks1).frames =
      oaRun (fun _ => none) (feedChunks witChunks2).frames :=
  decoder_chunk_invariance (fun _ => none) witChunks1 witChunks2 (by decide)

theorem oaRun_cons_skip (parse : List Char → Option Json) (p : List Char)
    (rest : List (List Char)) (hp : framePayload p = none) :
    oaRun parse (p :: rest) = oaRun parse rest := by
  simp [oaRun, hp]

theorem oaRun_cons_done (parse : List Char → Option Json) (p : List Char)
    (rest : List (List Char)) (d : List Char) (hp : framePayload p = some d)
    (hd : d = doneTag) : oaRun parse (p :: rest) = [] := by
  simp [oaRun, hp, hd]

theorem oaRun_cons_fail (parse : List Char → Option Json) (p : List Char)
    (rest : List (List Char)) (d : List Char) (hp : framePayload p = some d)
    (hd : d ≠ doneTag) (hj : parse d = none) :
    oaRun parse (p :: rest) = oaRun parse rest := by
  simp [oaRun, hp, hd, hj]

theorem oaRun_cons_ok (parse : List Char → Option Json) (p : List Char)
    (rest : List (List Char)) (d : List Char) (j : Json)
    (hp : framePayload p = some d) (hd : d ≠ doneTag) (hj : parse d = some j) :
    oaRun parse (p :: rest) = oaEventsOfJson j ++ oaRun parse rest := by
  simp [oaRun, hp, hd, hj]

/-- C6: a frame whose payload is exactly the `[DONE]` sentinel causes
normal termination of the OpenAI-compatible frame loop: the events are
exactly those of the frames before it, no event is emitted for the
sentinel itself, and no later frame is processed. -/
theorem oaRun_done_halts (parse : List Char → Option Json)
    (pre post : List (List Char)) (f : List Char)
    (hf : framePayload f = some doneTag) :
    oaRun parse (pre ++ f :: post) = oaRun parse pre := by
  induction pre with
  | nil =>
    rw [List.nil_append, oaRun_cons_done parse f post doneTag hf rfl]
    rfl
  | cons p pre ih =>
    rw [List.cons_append]
    cases hp : framePayload p with
    | none =>
      rw [oaRun_cons_skip parse p _ hp, oaRun_cons_skip parse p pre hp, ih]
    | some d =>
      by_cases hd : d = doneTag
      · rw [oaRun_cons_done parse p _ d hp hd, oaRun_cons_done parse p pre d hp hd]
      · cases hj : parse d with
        | none =>
          rw [oaRun_cons_fail parse p _ d hp hd hj,
            oaRun_cons_fail parse p pre d hp hd hj, ih]
        | some j =>
          rw [oaRun_cons_ok parse p _ d j hp hd hj,
            oaRun_cons_ok parse p pre d j hp hd hj, ih]

theorem oaRun_done_halts_witness :
    oaRun (fun _ => none) ([frameTokenWit] ++ frameDoneWit :: [frameTokenWit]) =
      oaRun (fun _ => none) [frameTokenWit] :=
  oaRun_done_halts (fun _ => none) [frameTokenWit] [frameTokenWit] frameDoneWit
    (by decide)

theorem anthRun_cons_skip (parse : List Char → Option Json) (p : List Char)
    (rest : List (List Char)) (hp : anthPayload p = none) :
    anthRun parse (p :: rest) = anthRun parse rest := by
  simp [anthRun, hp]

theorem anthRun_cons_fail (parse : List Char → Option Json) (p : List Char)
    (rest : List (List Char)) (d : List Char) (hp : anthPayload p = some d)
    (hj : parse d = none) : anthRun parse (p :: rest) = anthRun parse rest := by
  simp [anthRun, hp, hj]

theorem anthRun_cons_ok (parse : List Char → Option Json) (p : List Char)
    (rest : List (List Char)) (d : List Char) (j : Json)
    (hp : anthPayload p = some d) (hj : parse d = some j) :
    anthRun parse (p :: rest) = anthEventsOfJson j ++ anthRun parse rest := by
  simp [anthRun, hp, hj]

theorem googleRun_cons_skip (parse : List Char → Option Json) (p : List Char)
    (rest : List (List Char)) (hp : framePayload p = none) :
    googleRun parse (p :: rest) = googleRun parse rest := by
  simp [googleRun, hp]

theorem googleRun_cons_fail (parse : List Char → Option Json) (p : List Char)
    (rest : List (List Char)) (d : List Char) (hp : framePayload p = some d)
    (hj : parse d = none) : googleRun parse (p :: rest) = googleRun parse rest := by
  simp [googleRun, hp, hj]

theorem googleRun_cons_ok (parse : List Char → Option Json) (p : List Char)
    (rest : List (List Char)) (d : List Char) (j : Json)
    (hp : framePayload p = some d) (hj : parse d = some j) :
    googleRun parse (p :: rest) = googleEventsOfJson j ++ googleRun parse rest := by
  simp [googleRun, hp, hj]

theorem anthRun_parse_fail_skip (parse : List Char → Option Json)
    (pre post : List (List Char)) (f : List Char) (d : List Char)
    (hf : anthPayload f = some d) (hj : parse d = none) :
    anthRun parse (pre ++ f :: post) = anthRun parse (pre ++ post) := by
  induction pre with
  | nil =>
    rw [List.nil_append, List.nil_append, anthRun_cons_fail parse f post d hf hj]
  | cons p pre ih =>
    rw [List.cons_append, List.cons_append]
    cases hp : anthPayload p with
    | none =>
      rw [anthRun_cons_skip parse p _ hp, anthRun_cons_skip parse p _ hp, ih]
    | some d2 =>
      cases hj2 : parse d2 with
      | none =>
        rw [anthRun_cons_fail parse p _ d2 hp hj2,
          anthRun_cons_fail parse p _ d2 hp hj2, ih]
      | some j =>
        rw [anthRun_cons_ok parse p _ d2 j hp hj2,
          anthRun_cons_ok parse p _ d2 j hp hj2, ih]

theorem googleRun_parse_fail_skip (parse : List Char → Option Json)
    (pre post : List (List Char)) (f : List Char) (d : List Char)
    (hf : framePayload f = some d) (hj : parse d = none) :
    googleRun parse (pre ++ f :: post) = googleRun parse (pre ++ post) := by
  induction pre with
  | nil =>
    rw [List.nil_append, List.nil_append, googleRun_cons_fail parse f post d hf hj]
  | cons p pre ih =>
    rw [List.cons_append, List.cons_append]
    cases hp : framePayload p with
    | none =>
      rw [googleRun_cons_skip parse p _ hp, googleRun_cons_skip parse p _ hp, ih]
    | some d2 =>
      cases hj2 : parse d2 with
      | none =>
        rw [googleRun_cons_fail parse p _ d2 hp hj2,
          googleRun_cons_fail parse p _ d2 hp hj2, ih]
      | some j =>
        rw [googleRun_cons_ok parse p _ d2 j hp hj2,
          googleRun_cons_ok parse p _ d2 j hp hj2, ih]

theorem oaRun_parse_fail_skip (parse : List Char → Option Json)
    (pre post : List (List Char)) (f : List Char) (d : List Char)
    (hf : framePayload f = some d) (hd : d ≠ doneTag) (hj : parse d = none) :
    oaRun parse (pre ++ f :: post) = oaRun parse (pre ++ post) := by
  induction pre with
  | nil =>
    rw [List.nil_append, List.nil_append, oaRun_cons_fail parse f post d hf hd hj]
  | cons p pre ih =>
    rw [List.cons_append, List.cons_append]
    cases hp : framePayload p with
    | none =>
      rw [oaRun_cons_skip parse p _ hp, oaRun_cons_skip parse p _ hp, ih]
    | some d2 =>
      by_cases hd2 : d2 = doneTag
      · rw [oaRun_cons_done parse p _ d2 hp hd2, oaRun_cons_done parse p _ d2 hp hd2]
      · cases hj2 : parse d2 with
        | none =>
          rw [oaRun_cons_fail parse p _ d2 hp hd2 hj2,
            oaRun_cons_fail parse p _ d2 hp hd2 hj2, ih]
        | some j =>
          rw [oaRun_cons_ok parse p _ d2 j hp hd2 hj2,
            oaRun_cons_ok parse p _ d2 j hp hd2 hj2, ih]

/-- C7: in each of the three adapter variants, a frame whose payload
fails to parse as JSON is discarded silently — it emits no event, does
not terminate the loop, and the remaining frames are processed exactly
as if the bad frame were absent.  The OpenAI-compatible variant needs
the payload to differ from the `[DONE]` sentinel, which is checked
before parsing. -/
theorem parse_failure_skipped (parse : List Char → Option Json)
    (pre post : List (List Char)) (f : List Char) (d : List Char) :
    (framePayload f = some d → d ≠ doneTag → parse d = none →
      oaRun parse (pre ++ f :: post) = oaRun parse (pre ++ post)) ∧
    (anthPayload f = some d → parse d = none →
      anthRun parse (pre ++ f :: post) = anthRun parse (pre ++ post)) ∧
    (framePayload f = some d → parse d = none →
      googleRun parse (pre ++ f :: post) = googleRun parse (pre ++ post)) :=
  ⟨fun hf hd hj => oaRun_parse_fail_skip parse pre post f d hf hd hj,
   fun hf hj => anthRun_parse_fail_skip parse pre post f d hf hj,
   fun hf hj => googleRun_parse_fail_skip parse pre post f d hf hj⟩

theorem parse_failure_skipped_witness :
    oaRun (fun _ => none) ([] ++ frameTokenWit :: []) = oaRun (fun _ => none) ([] ++ []) ∧
    anthRun (fun _ => none) ([] ++ frameTokenWit :: []) = anthRun (fun _ => none) ([] ++ []) ∧
    googleRun (fun _ => none) ([] ++ frameTokenWit :: []) = googleRun (fun _ => none) ([] ++ []) :=
  ⟨(parse_failure_skipped (fun _ => none) [] [] frameTokenWit xPayloadWit).1
      (by decide) (by decide) rfl,
   (parse_failure_skipped (fun _ => none) [] [] frameTokenWit xPayloadWit).2.1
      (by decide) rfl,
   (parse_failure_skipped (fun _ => none) [] [] frameTokenWit xPayloadWit).2.2
      (by decide) rfl⟩
